import Mathlib

/-!
Verification of the `miniquad-mandelbrot` viewer (`src/main.rs`).

Shallow embedding conventions: `f32` values are modelled as exact rationals
(`ℚ`); the claims themselves are phrased over exact arithmetic, with
floating-point drift named an accepted boundary condition by the spec.
Rust's truncating `as i32` cast is modelled by `truncI` (truncation toward
zero) and the saturating `as u8` cast by `as_u8`.  The `panic!` branch of
`hsv_to_rgb` is modelled as `Option.none`.  The fragment shader's loop is
modelled with explicit fuel equal to its bound `max_iterations`.
-/

namespace MandelbrotViewer

/-- Truncation toward zero of a rational, the semantics of Rust's `as i32`
cast on a finite float. -/
def truncI (q : ℚ) : ℤ :=
  if q < 0 then ⌈q⌉ else ⌊q⌋

/-- Saturating cast to a byte, the semantics of Rust's `as u8` cast on a
finite float: truncate toward zero, then clamp into `[0, 255]`. -/
def as_u8 (q : ℚ) : ℕ :=
  (max 0 (min 255 (truncI q))).toNat

/-- `const NUM_COLORS: i32 = 12;` -/
def NUM_COLORS : ℕ := 12

/-- `pub fn hsv_to_rgb(h: f32, s: f32, v: f32) -> [u8; 3]`, from
`src/main.rs` lines 42-58.  The `panic!("Unknown H value …")` arm is
`none`. -/
def hsv_to_rgb (h s v : ℚ) : Option (ℕ × ℕ × ℕ) :=
  let h_i : ℤ := truncI (h * 6)
  let f : ℚ := h * 6 - (h_i : ℚ)
  let p : ℚ := v * (1 - s)
  let q : ℚ := v * (1 - f * s)
  let t : ℚ := v * (1 - (1 - f) * s)
  let rgb : Option (ℚ × ℚ × ℚ) :=
    if h_i = 0 then some (v, t, p)
    else if h_i = 1 then some (q, v, p)
    else if h_i = 2 then some (p, v, t)
    else if h_i = 3 then some (p, q, v)
    else if h_i = 4 then some (t, p, v)
    else if h_i = 5 then some (v, p, q)
    else none
  rgb.map (fun c => (as_u8 (c.1 * 255), as_u8 (c.2.1 * 255), as_u8 (c.2.2 * 255)))

/-- `enum Action { Idle, ZoomingIn(f32, f32), ZoomingOut(f32, f32) }` -/
inductive Action where
  | Idle : Action
  | ZoomingIn (x y : ℚ) : Action
  | ZoomingOut (x y : ℚ) : Action
deriving DecidableEq

/-- The mutable fields of `struct Mandelbrot` (the GPU handles carry no
state the claims mention). -/
structure State where
  zoom : ℚ
  center : ℚ × ℚ
  action : Action
deriving DecidableEq

/-- The view state installed by `Mandelbrot::new`. -/
def initState : State :=
  { zoom := 1, center := (0, 0), action := Action.Idle }

/-- `miniquad::MouseButton` as the event handlers observe it. -/
inductive MouseButton where
  | Left | Right | Middle | Unknown
deriving DecidableEq

/-- `miniquad::TouchPhase`. -/
inductive TouchPhase where
  | Started | Moved | Ended | Cancelled
deriving DecidableEq

/-- `Mandelbrot::norm_mouse_pos`: cubic remap of raw window coordinates,
`(4*(x/w - 0.5)^3, 4*(y/h - 0.5)^3)`. -/
def norm_mouse_pos (w h x y : ℚ) : ℚ × ℚ :=
  (4 * (x / w - 0.5) ^ (3 : ℕ), 4 * (y / h - 0.5) ^ (3 : ℕ))

/-- `EventHandler::update` (lines 128-143): one tick of the zoom/pan state
machine.  The zoom factor is applied first; the centre shift divides by
the already-updated zoom, exactly as `self.zoom *= 1.01;
self.center.0 -= x / self.zoom; …` does. -/
def update (s : State) : State :=
  match s.action with
  | Action.ZoomingIn x y =>
      let z := s.zoom * 1.01
      { s with zoom := z, center := (s.center.1 - x / z, s.center.2 + y / z) }
  | Action.ZoomingOut x y =>
      let z := s.zoom / 1.01
      { s with zoom := z, center := (s.center.1 + x / z, s.center.2 - y / z) }
  | Action.Idle => s

/-- `Mandelbrot::mouse_button_down_event` (lines 182-190): left button
starts zooming in at the normalized anchor, right button zooming out,
any other button leaves the state alone. -/
def mouse_button_down_event (s : State) (w h : ℚ) (button : MouseButton)
    (x y : ℚ) : State :=
  let pos := norm_mouse_pos w h x y
  match button with
  | MouseButton.Left => { s with action := Action.ZoomingIn pos.1 pos.2 }
  | MouseButton.Right => { s with action := Action.ZoomingOut pos.1 pos.2 }
  | _ => s

/-- `Mandelbrot::mouse_button_up_event` (lines 192-194): every button
release resets the action to `Idle`. -/
def mouse_button_up_event (s : State) (_button : MouseButton) (_x _y : ℚ) :
    State :=
  { s with action := Action.Idle }

/-- `Mandelbrot::mouse_motion_event` (lines 196-208): refresh the anchor
while zooming, otherwise do nothing. -/
def mouse_motion_event (s : State) (w h x y : ℚ) : State :=
  let pos := norm_mouse_pos w h x y
  match s.action with
  | Action.ZoomingIn _ _ => { s with action := Action.ZoomingIn pos.1 pos.2 }
  | Action.ZoomingOut _ _ => { s with action := Action.ZoomingOut pos.1 pos.2 }
  | Action.Idle => s

/-- `Mandelbrot::touch_event` (lines 210-224): touch start and move both
enter `ZoomingIn`; every other phase goes `Idle`. -/
def touch_event (s : State) (w h : ℚ) (phase : TouchPhase) (x y : ℚ) :
    State :=
  let pos := norm_mouse_pos w h x y
  match phase with
  | TouchPhase.Started => { s with action := Action.ZoomingIn pos.1 pos.2 }
  | TouchPhase.Moved => { s with action := Action.ZoomingIn pos.1 pos.2 }
  | _ => { s with action := Action.Idle }

/-- One externally-triggered transition of the event handler: a frame tick
or one of the input callbacks, each carrying the screen size the handler
would query. -/
inductive Event where
  | tick : Event
  | mouseDown (w h : ℚ) (b : MouseButton) (x y : ℚ) : Event
  | mouseUp (b : MouseButton) (x y : ℚ) : Event
  | mouseMove (w h x y : ℚ) : Event
  | touch (w h : ℚ) (p : TouchPhase) (x y : ℚ) : Event

/-- Dispatch one event to the matching handler method. -/
def step (s : State) : Event → State
  | Event.tick => update s
  | Event.mouseDown w h b x y => mouse_button_down_event s w h b x y
  | Event.mouseUp b x y => mouse_button_up_event s b x y
  | Event.mouseMove w h x y => mouse_motion_event s w h x y
  | Event.touch w h p x y => touch_event s w h p x y

/-- Run a finite sequence of events from a state. -/
def run (s : State) (es : List Event) : State :=
  es.foldl step s

/-- The transform uniform computed inside `Mandelbrot::draw`
(lines 152-173), as the 16-entry column-major array the code uploads. -/
def draw_transform (zoom cx cy w h : ℚ) : List ℚ :=
  let r : ℚ := h / w
  let s : ℚ × ℚ := if r ≤ 1 then (r, 1) else (1, 1 / r)
  let scale_x : ℚ := s.1 * zoom
  let scale_y : ℚ := s.2 * zoom
  [scale_x, 0, 0, 0,
   0, scale_y, 0, 0,
   0, 0, 1, 0,
   scale_x * cx, scale_y * cy, 0, 1]

/-- `const int max_iterations = 500;` of `SHADER_FRAGMENT`. -/
def max_iterations : ℕ := 500

/-- `vec2 square_complex(vec2 c)` of the fragment shader:
`(a, b)^2 = (a^2 - b^2, 2ab)`. -/
def square_complex (c : ℚ × ℚ) : ℚ × ℚ :=
  (c.1 * c.1 - c.2 * c.2, 2 * c.1 * c.2)

/-- The escape test expression `z.x*z.x + z.y*z.y` of the shader loop. -/
def normSq (z : ℚ × ℚ) : ℚ :=
  z.1 * z.1 + z.2 * z.2

/-- The shader's iteration loop, with explicit fuel.  At each step it
first tests the current `z` and returns the loop counter `i` on escape;
on fuel exhaustion the shader's `b == -1` fix-up yields
`max_iterations`. -/
def escapeGo (c z : ℚ × ℚ) (i : ℕ) : ℕ → ℕ
  | 0 => max_iterations
  | fuel + 1 =>
      if normSq z > 4 then i
      else escapeGo c (square_complex z + c) (i + 1) fuel

/-- The escape index `b` the fragment shader computes for a complex
coordinate `c`: loop from `z = (0,0)`, `i = 0`, for `max_iterations`
rounds. -/
def escape_b (c : ℚ × ℚ) : ℕ :=
  escapeGo c (0, 0) 0 max_iterations

/-- The mathematical orbit `z_0 = (0,0)`, `z_{n+1} = z_n^2 + c`, used to
state what `escape_b` computes. -/
def zseq (c : ℚ × ℚ) : ℕ → ℚ × ℚ
  | 0 => (0, 0)
  | n + 1 => square_complex (zseq c n) + c

/-- The palette `Mandelbrot::new` builds (lines 81-88): for each
`i < NUM_COLORS`, the RGB of `hsv_to_rgb(i / NUM_COLORS, 1., 1.)`
followed by alpha `255`; `none` if any conversion would panic. -/
def build_palette : Option (List (ℕ × ℕ × ℕ × ℕ)) :=
  (List.range NUM_COLORS).mapM fun i =>
    (hsv_to_rgb ((i : ℚ) / (NUM_COLORS : ℚ)) 1 1).map fun c =>
      (c.1, c.2.1, c.2.2, 255)

/-- Nearest-neighbour sampling of a 1-row texture of `tex.length` texels
at horizontal texture coordinate `x`: texel `⌊x * width⌋`. -/
def sampleNearest (tex : List (ℕ × ℕ × ℕ × ℕ)) (x : ℚ) : ℕ × ℕ × ℕ × ℕ :=
  tex.getD (Int.toNat ⌊x * (tex.length : ℚ)⌋) (0, 0, 0, 0)

/-- The colour decision of the fragment shader's `main` (lines 282-290)
as a function of the escape index `b`: interior points are opaque black,
others sample the palette at `float(b - (b/num_colors)*num_colors) /
float(num_colors)`. -/
def frag_color (pal : List (ℕ × ℕ × ℕ × ℕ)) (b : ℕ) : ℕ × ℕ × ℕ × ℕ :=
  if b = max_iterations then (0, 0, 0, 255)
  else sampleNearest pal (((b - (b / NUM_COLORS) * NUM_COLORS : ℕ) : ℚ) / (NUM_COLORS : ℚ))

/-! ### Per-tick update (claim C1) -/

/-- C1: one tick multiplies `zoom` by 1.01 while `ZoomingIn(ax, ay)` and
shifts the centre by `(-ax, +ay)` divided by the already-updated zoom;
while `ZoomingOut(ax, ay)` it divides `zoom` by 1.01 and shifts the
centre by `(+ax, -ay)` divided by the already-updated zoom; while `Idle`
it changes nothing. -/
theorem update_tick_spec (s : State) (ax ay : ℚ) :
    (s.action = Action.ZoomingIn ax ay →
      (update s).zoom = s.zoom * 1.01 ∧
      (update s).center.1 = s.center.1 - ax / (s.zoom * 1.01) ∧
      (update s).center.2 = s.center.2 + ay / (s.zoom * 1.01)) ∧
    (s.action = Action.ZoomingOut ax ay →
      (update s).zoom = s.zoom / 1.01 ∧
      (update s).center.1 = s.center.1 + ax / (s.zoom / 1.01) ∧
      (update s).center.2 = s.center.2 - ay / (s.zoom / 1.01)) ∧
    (s.action = Action.Idle → update s = s) := by
  refine ⟨fun h => ?_, fun h => ?_, fun h => ?_⟩ <;> simp [update, h]

/-- Witness for `update_tick_spec` at a concrete zooming-in state. -/
theorem update_tick_spec_witness :
    (update ⟨2, (3, 4), Action.ZoomingIn 1 1⟩).zoom = 2 * 1.01 :=
  ((update_tick_spec ⟨2, (3, 4), Action.ZoomingIn 1 1⟩ 1 1).1 rfl).1

/-! ### Pointer release and idle ticks (claim C7) -/

/-- C7: a pointer-release with any button, in any state, sets the action
to `Idle`, and a tick performed in any `Idle` state leaves both `zoom`
and `center` unchanged. -/
theorem pointer_up_idle (s : State) (b : MouseButton) (x y : ℚ) :
    (mouse_button_up_event s b x y).action = Action.Idle ∧
    (∀ t : State, t.action = Action.Idle →
      (update t).zoom = t.zoom ∧ (update t).center = t.center) := by
  refine ⟨rfl, fun t ht => ?_⟩
  simp [update, ht]

/-- Witness for `pointer_up_idle`: releasing a button mid-zoom goes
`Idle`, and the idle tick is a no-op on a concrete state. -/
theorem pointer_up_idle_witness :
    (mouse_button_up_event ⟨2, (1, 1), Action.ZoomingIn 3 4⟩ MouseButton.Left 0 0).action
        = Action.Idle ∧
    (update ⟨2, (1, 1), Action.Idle⟩).zoom = 2 :=
  ⟨(pointer_up_idle ⟨2, (1, 1), Action.ZoomingIn 3 4⟩ MouseButton.Left 0 0).1,
   ((pointer_up_idle ⟨2, (1, 1), Action.Idle⟩ MouseButton.Left 0 0).2
      ⟨2, (1, 1), Action.Idle⟩ rfl).1⟩

/-! ### Non-primary pointer press (claim C10) -/

/-- C10: a pointer-press with any button other than `Left` or `Right`
leaves the whole state — action, zoom and center — exactly unchanged. -/
theorem other_button_noop (s : State) (w h x y : ℚ) (b : MouseButton)
    (hl : b ≠ MouseButton.Left) (hr : b ≠ MouseButton.Right) :
    mouse_button_down_event s w h b x y = s := by
  cases b with
  | Left => exact absurd rfl hl
  | Right => exact absurd rfl hr
  | Middle => rfl
  | Unknown => rfl

/-- Witness for `other_button_noop`: a middle-button press on a concrete
zooming state changes nothing. -/
theorem other_button_noop_witness :
    mouse_button_down_event ⟨2, (1, 1), Action.ZoomingOut 3 4⟩ 800 600
        MouseButton.Middle 10 20 = ⟨2, (1, 1), Action.ZoomingOut 3 4⟩ :=
  other_button_noop ⟨2, (1, 1), Action.ZoomingOut 3 4⟩ 800 600 10 20
    MouseButton.Middle (by decide) (by decide)

/-! ### Zoom positivity invariant (claim C8) -/

/-- Every single step — tick or input event — preserves `0 < zoom`. -/
theorem step_zoom_pos (s : State) (e : Event) (hs : 0 < s.zoom) :
    0 < (step s e).zoom := by
  cases e with
  | tick =>
      show 0 < (update s).zoom
      cases h : s.action <;> simp [update, h] <;> positivity
  | mouseDown w h b x y => cases b <;> exact hs
  | mouseUp b x y => exact hs
  | mouseMove w h x y =>
      show 0 < (mouse_motion_event s w h x y).zoom
      cases h2 : s.action <;> simp [mouse_motion_event, h2] <;> exact hs
  | touch w h p x y => cases p <;> exact hs

/-- C8: starting from the initial state (`zoom = 1`), `zoom` stays
strictly positive under every finite sequence of ticks and input
events. -/
theorem zoom_positive_invariant (es : List Event) :
    0 < (run initState es).zoom := by
  have general : ∀ (l : List Event) (s : State), 0 < s.zoom → 0 < (run s l).zoom := by
    intro l
    induction l with
    | nil => exact fun s hs => hs
    | cons e tl ih => exact fun s hs => ih (step s e) (step_zoom_pos s e hs)
  exact general es initState one_pos

/-! ### View transform (claim C2) -/

/-- C2: for positive zoom and screen dimensions, the uploaded transform
has scales `(h/w, 1)` (when `h/w ≤ 1`) or `(1, w/h)` (otherwise), both
multiplied by `zoom`, and translation `(sx*cx, sy*cy)` in the fourth
row; at `zoom = 1`, `center = (0,0)`, screen `800×600` the scales are
`(3/4, 1)` with translation `(0, 0)`. -/
theorem view_transform_spec (zoom cx cy w h : ℚ)
    (hz : 0 < zoom) (hw : 0 < w) (hh : 0 < h) :
    ((h / w ≤ 1 →
        draw_transform zoom cx cy w h =
          [h / w * zoom, 0, 0, 0,
           0, zoom, 0, 0,
           0, 0, 1, 0,
           h / w * zoom * cx, zoom * cy, 0, 1]) ∧
     (1 < h / w →
        draw_transform zoom cx cy w h =
          [zoom, 0, 0, 0,
           0, w / h * zoom, 0, 0,
           0, 0, 1, 0,
           zoom * cx, w / h * zoom * cy, 0, 1])) ∧
    draw_transform 1 0 0 800 600 = [3/4, 0, 0, 0, 0, 1, 0, 0, 0, 0, 1, 0, 0, 0, 0, 1] := by
  constructor
  · constructor
    · intro hr
      simp [draw_transform, hr]
    · intro hr
      rw [draw_transform]
      simp only [not_le.mpr hr, if_false]
      have hne : h ≠ 0 := ne_of_gt hh
      field_simp
  · norm_num [draw_transform]

/-- Witness for `view_transform_spec` at the spec's example input. -/
theorem view_transform_spec_witness :
    (600 : ℚ) / 800 ≤ 1 ∧
    draw_transform 1 0 0 800 600 =
      [(600 : ℚ) / 800 * 1, 0, 0, 0,
       0, 1, 0, 0,
       0, 0, 1, 0,
       (600 : ℚ) / 800 * 1 * 0, 1 * 0, 0, 1] :=
  ⟨by norm_num,
   ((view_transform_spec 1 0 0 800 600 one_pos (by norm_num) (by norm_num)).1.1
      (by norm_num))⟩

/-! ### Zoom monotonicity and round-trip (claim C6) -/

/-- A tick never changes the action field. -/
theorem update_action (s : State) : (update s).action = s.action := by
  cases h : s.action <;> simp [update, h]

/-- Iterated ticks never change the action field. -/
theorem iterate_update_action (s : State) (n : ℕ) :
    (update^[n] s).action = s.action := by
  induction n with
  | zero => rfl
  | succ n ih => rw [Function.iterate_succ_apply', update_action, ih]

/-- Zoom formula for one zooming-in tick. -/
theorem update_zoom_in (s : State) (x y : ℚ)
    (h : s.action = Action.ZoomingIn x y) :
    (update s).zoom = s.zoom * 1.01 := by
  simp [update, h]

/-- Zoom formula for one zooming-out tick. -/
theorem update_zoom_out (s : State) (x y : ℚ)
    (h : s.action = Action.ZoomingOut x y) :
    (update s).zoom = s.zoom / 1.01 := by
  simp [update, h]

/-- Closed form for the zoom after `n` zooming-in ticks. -/
theorem iterate_zoom_in (s : State) (x y : ℚ)
    (h : s.action = Action.ZoomingIn x y) (n : ℕ) :
    (update^[n] s).zoom = s.zoom * 1.01 ^ n := by
  induction n with
  | zero => simp
  | succ n ih =>
      rw [Function.iterate_succ_apply',
        update_zoom_in _ x y ((iterate_update_action s n).trans h), ih,
        pow_succ, mul_assoc]

/-- Closed form for the zoom after `n` zooming-out ticks. -/
theorem iterate_zoom_out (s : State) (x y : ℚ)
    (h : s.action = Action.ZoomingOut x y) (n : ℕ) :
    (update^[n] s).zoom = s.zoom / 1.01 ^ n := by
  induction n with
  | zero => simp
  | succ n ih =>
      rw [Function.iterate_succ_apply',
        update_zoom_out _ x y ((iterate_update_action s n).trans h), ih,
        pow_succ, div_div]

/-- C6: from any positive zoom, each zooming-in tick strictly increases
the zoom and each zooming-out tick strictly decreases it; and `n`
zooming-in ticks followed by `n` zooming-out ticks restore the zoom
exactly (in the exact arithmetic of this embedding). -/
theorem zoom_monotone_roundtrip (s t : State) (x y a b : ℚ) (n : ℕ)
    (hs : 0 < s.zoom) (ht : 0 < t.zoom)
    (hin : s.action = Action.ZoomingIn x y)
    (hout : t.action = Action.ZoomingOut a b) :
    (∀ m : ℕ, (update^[m] s).zoom < (update^[m + 1] s).zoom) ∧
    (∀ m : ℕ, (update^[m + 1] t).zoom < (update^[m] t).zoom) ∧
    (update^[n] { update^[n] s with action := Action.ZoomingOut a b }).zoom
      = s.zoom := by
  have pow_pos' : ∀ m : ℕ, (0 : ℚ) < 1.01 ^ m := fun m => by positivity
  refine ⟨fun m => ?_, fun m => ?_, ?_⟩
  · have hpos : 0 < (update^[m] s).zoom := by
      rw [iterate_zoom_in s x y hin m]
      exact mul_pos hs (pow_pos' m)
    rw [Function.iterate_succ_apply',
      update_zoom_in _ x y ((iterate_update_action s m).trans hin)]
    exact lt_mul_of_one_lt_right hpos (by norm_num)
  · have hpos : 0 < (update^[m] t).zoom := by
      rw [iterate_zoom_out t a b hout m]
      exact div_pos ht (pow_pos' m)
    rw [Function.iterate_succ_apply',
      update_zoom_out _ a b ((iterate_update_action t m).trans hout)]
    exact div_lt_self hpos (by norm_num)
  · rw [iterate_zoom_out _ a b rfl n]
    show (update^[n] s).zoom / 1.01 ^ n = s.zoom
    rw [iterate_zoom_in s x y hin n,
      mul_div_cancel_right₀ _ (ne_of_gt (pow_pos' n))]

/-- Witness for `zoom_monotone_roundtrip` at a concrete state and
`n = 2`. -/
theorem zoom_monotone_roundtrip_witness :
    (update^[0] (⟨1, (0, 0), Action.ZoomingIn 2 3⟩ : State)).zoom <
      (update^[0 + 1] (⟨1, (0, 0), Action.ZoomingIn 2 3⟩ : State)).zoom ∧
    (update^[2]
        { update^[2] (⟨1, (0, 0), Action.ZoomingIn 2 3⟩ : State) with
            action := Action.ZoomingOut 5 6 }).zoom = 1 :=
  ⟨(zoom_monotone_roundtrip ⟨1, (0, 0), Action.ZoomingIn 2 3⟩
      ⟨1, (0, 0), Action.ZoomingOut 5 6⟩ 2 3 5 6 2 one_pos one_pos rfl rfl).1 0,
   (zoom_monotone_roundtrip ⟨1, (0, 0), Action.ZoomingIn 2 3⟩
      ⟨1, (0, 0), Action.ZoomingOut 5 6⟩ 2 3 5 6 2 one_pos one_pos rfl rfl).2.2⟩

/-! ### HSV conversion (claims C5, C9) -/

/-- Truncation toward zero agrees with the floor on nonnegative input. -/
theorem truncI_of_nonneg (q : ℚ) (h : 0 ≤ q) : truncI q = ⌊q⌋ :=
  if_neg (not_lt.mpr h)

/-- The saturating byte cast never exceeds 255. -/
theorem as_u8_le (q : ℚ) : as_u8 q ≤ 255 := by
  unfold as_u8
  omega

/-- The sector table of the spec (§4.1), specialized to `s = 1, v = 1`
where `p = 0`, `q = 1 - f`, `t = f`.  Modelled from the spec's words so
that `hsv_to_rgb`'s output can be compared against it. -/
def specSectorShape (k : ℕ) (f : ℚ) : ℕ × ℕ × ℕ :=
  match k with
  | 0 => (as_u8 255, as_u8 (f * 255), as_u8 0)
  | 1 => (as_u8 ((1 - f) * 255), as_u8 255, as_u8 0)
  | 2 => (as_u8 0, as_u8 255, as_u8 (f * 255))
  | 3 => (as_u8 0, as_u8 ((1 - f) * 255), as_u8 255)
  | 4 => (as_u8 (f * 255), as_u8 0, as_u8 255)
  | _ => (as_u8 255, as_u8 0, as_u8 ((1 - f) * 255))

/-- For `s = v = 1` and any hue whose sector index is `k ≤ 5`, the code's
conversion lands exactly on the spec's sector shape. -/
theorem hsv_sector_eval (h : ℚ) (k : ℕ) (hk : truncI (h * 6) = (k : ℤ))
    (hk5 : k ≤ 5) :
    hsv_to_rgb h 1 1 = some (specSectorShape k (h * 6 - (k : ℚ))) := by
  unfold hsv_to_rgb
  interval_cases k <;>
    simp only [hk, Nat.cast_ofNat, Nat.cast_zero, Nat.cast_one] <;>
    norm_num [specSectorShape, Prod.ext_iff]

/-- C5: for every hue in `[0, 1)` (with `s = v = 1`) the sector index
`h_i = ⌊h*6⌋` lies in `[0, 5]`, so the panic arm of `hsv_to_rgb` is
unreachable; in particular it is unreachable for every input
`h = i / NUM_COLORS`, `i < NUM_COLORS`, that the palette loop in
`Mandelbrot::new` supplies. -/
theorem hue_sector_safe :
    (∀ h : ℚ, 0 ≤ h → h < 1 →
      0 ≤ truncI (h * 6) ∧ truncI (h * 6) ≤ 5 ∧
        (hsv_to_rgb h 1 1).isSome = true) ∧
    (∀ i : ℕ, i < NUM_COLORS →
      (hsv_to_rgb ((i : ℚ) / (NUM_COLORS : ℚ)) 1 1).isSome = true) := by
  have main : ∀ h : ℚ, 0 ≤ h → h < 1 →
      0 ≤ truncI (h * 6) ∧ truncI (h * 6) ≤ 5 ∧
        (hsv_to_rgb h 1 1).isSome = true := by
    intro h h0 h1
    have h6 : 0 ≤ h * 6 := by linarith
    have htr : truncI (h * 6) = ⌊h * 6⌋ := truncI_of_nonneg _ h6
    have hlb : 0 ≤ ⌊h * 6⌋ := Int.floor_nonneg.mpr h6
    have hub : ⌊h * 6⌋ ≤ 5 := by
      have hx : h * 6 < ((6 : ℤ) : ℚ) := by push_cast; linarith
      have := Int.floor_lt.mpr hx
      omega
    refine ⟨by omega, by omega, ?_⟩
    have hk : truncI (h * 6) = ((⌊h * 6⌋.toNat : ℕ) : ℤ) := by omega
    rw [hsv_sector_eval h ⌊h * 6⌋.toNat hk (by omega)]
    rfl
  refine ⟨main, fun i hi => ?_⟩
  have hN : (0 : ℚ) < (NUM_COLORS : ℚ) := by norm_num [NUM_COLORS]
  refine (main _ (by positivity) ?_).2.2
  rw [div_lt_one hN]
  exact_mod_cast hi

/-- Witness for `hue_sector_safe` at `h = 1/2` and palette index
`i = 7`. -/
theorem hue_sector_safe_witness :
    (hsv_to_rgb (1/2) 1 1).isSome = true ∧
    (hsv_to_rgb ((7 : ℚ) / 12) 1 1).isSome = true :=
  ⟨(hue_sector_safe.1 (1/2) (by norm_num) (by norm_num)).2.2,
   hue_sector_safe.2 7 (by norm_num [NUM_COLORS])⟩

/-- C9: for every hue in `[0, 1)` with `s = v = 1`, the conversion
returns exactly the sector shape selected by `k = ⌊h*6⌋ ∈ [0, 5]`, with
every channel truncated into `[0, 255]`; in particular
`hsv_to_rgb 0 1 1 = (255, 0, 0)` and `hsv_to_rgb (1/3) 1 1` is pure
green. -/
theorem hsv_sector_shapes :
    (∀ h : ℚ, 0 ≤ h → h < 1 →
      ∃ k : ℕ, k ≤ 5 ∧ truncI (h * 6) = (k : ℤ) ∧
        hsv_to_rgb h 1 1 = some (specSectorShape k (h * 6 - (k : ℚ))) ∧
        (specSectorShape k (h * 6 - (k : ℚ))).1 ≤ 255 ∧
        (specSectorShape k (h * 6 - (k : ℚ))).2.1 ≤ 255 ∧
        (specSectorShape k (h * 6 - (k : ℚ))).2.2 ≤ 255) ∧
    hsv_to_rgb 0 1 1 = some (255, 0, 0) ∧
    hsv_to_rgb (1/3) 1 1 = some (0, 255, 0) := by
  refine ⟨fun h h0 h1 => ?_, ?_, ?_⟩
  · have h6 : 0 ≤ h * 6 := by linarith
    have htr : truncI (h * 6) = ⌊h * 6⌋ := truncI_of_nonneg _ h6
    have hlb : 0 ≤ ⌊h * 6⌋ := Int.floor_nonneg.mpr h6
    have hub : ⌊h * 6⌋ ≤ 5 := by
      have hx : h * 6 < ((6 : ℤ) : ℚ) := by push_cast; linarith
      have := Int.floor_lt.mpr hx
      omega
    refine ⟨⌊h * 6⌋.toNat, by omega, by omega, ?_, ?_, ?_, ?_⟩
    · exact hsv_sector_eval h ⌊h * 6⌋.toNat (by omega) (by omega)
    all_goals
      rcases n5 : ⌊h * 6⌋.toNat with _|_|_|_|_|_ <;>
        (simp only [specSectorShape]; exact as_u8_le _)
  · have : truncI ((0 : ℚ) * 6) = ((0 : ℕ) : ℤ) := by
      norm_num [truncI]
    rw [hsv_sector_eval 0 0 this (by norm_num)]
    norm_num [specSectorShape, as_u8, truncI]
    decide
  · have : truncI ((1/3 : ℚ) * 6) = ((2 : ℕ) : ℤ) := by
      norm_num [truncI]
    rw [hsv_sector_eval (1/3) 2 this (by norm_num)]
    norm_num [specSectorShape, as_u8, truncI]
    decide

/-- Witness for `hsv_sector_shapes` at `h = 1/2` (sector 3). -/
theorem hsv_sector_shapes_witness :
    ∃ k : ℕ, k ≤ 5 ∧ truncI ((1/2 : ℚ) * 6) = (k : ℤ) ∧
      hsv_to_rgb (1/2) 1 1 = some (specSectorShape k ((1/2 : ℚ) * 6 - (k : ℚ))) ∧
      (specSectorShape k ((1/2 : ℚ) * 6 - (k : ℚ))).1 ≤ 255 ∧
      (specSectorShape k ((1/2 : ℚ) * 6 - (k : ℚ))).2.1 ≤ 255 ∧
      (specSectorShape k ((1/2 : ℚ) * 6 - (k : ℚ))).2.2 ≤ 255 :=
  hsv_sector_shapes.1 (1/2) (by norm_num) (by norm_num)

/-! ### Escape-time evaluator (claim C3) -/

/-- Unfolding the orbit one step. -/
theorem zseq_succ (c : ℚ × ℚ) (n : ℕ) :
    zseq c (n + 1) = square_complex (zseq c n) + c := rfl

/-- Full characterization of the shader loop on the orbit: starting the
loop at orbit position `i` with `fuel` rounds left, either the fuel runs
out with no escape among the next `fuel` orbit points and the result is
`max_iterations`, or the result is the first orbit index at or after `i`
whose squared norm exceeds 4. -/
theorem escapeGo_char (c : ℚ × ℚ) : ∀ (fuel i : ℕ),
    (escapeGo c (zseq c i) i fuel = max_iterations ∧
      ∀ k, k < fuel → ¬ 4 < normSq (zseq c (i + k))) ∨
    (i ≤ escapeGo c (zseq c i) i fuel ∧
      escapeGo c (zseq c i) i fuel < i + fuel ∧
      4 < normSq (zseq c (escapeGo c (zseq c i) i fuel)) ∧
      ∀ m, i ≤ m → m < escapeGo c (zseq c i) i fuel →
        ¬ 4 < normSq (zseq c m)) := by
  intro fuel
  induction fuel with
  | zero =>
      intro i
      exact Or.inl ⟨rfl, fun k hk => absurd hk (Nat.not_lt_zero k)⟩
  | succ fuel ih =>
      intro i
      by_cases h4 : 4 < normSq (zseq c i)
      · right
        have he : escapeGo c (zseq c i) i (fuel + 1) = i := by
          rw [escapeGo, if_pos h4]
        rw [he]
        exact ⟨le_refl i, by omega, h4, fun m him hmi => by omega⟩
      · have he : escapeGo c (zseq c i) i (fuel + 1)
            = escapeGo c (zseq c (i + 1)) (i + 1) fuel := by
          rw [escapeGo, if_neg h4, zseq_succ]
        rw [he]
        rcases ih (i + 1) with ⟨hm, hall⟩ | ⟨h1, h2, h3, h4'⟩
        · left
          refine ⟨hm, fun k hk => ?_⟩
          cases k with
          | zero => simpa using h4
          | succ j =>
              have hj := hall j (by omega)
              have : i + (j + 1) = i + 1 + j := by omega
              rw [this]
              exact hj
        · right
          refine ⟨by omega, by omega, h3, fun m him hmi => ?_⟩
          rcases Nat.eq_or_lt_of_le him with heq | hlt
          · rw [← heq]
            exact h4
          · exact h4' m hlt hmi

/-- The orbit of `c = (0, 0)` is constantly `(0, 0)`. -/
theorem zseq_zero_const (n : ℕ) : zseq (0, 0) n = (0, 0) := by
  induction n with
  | zero => rfl
  | succ n ih =>
      rw [zseq_succ, ih]
      show ((0 : ℚ) * 0 - 0 * 0, (2 : ℚ) * 0 * 0) + (0, 0) = (0, 0)
      norm_num [Prod.ext_iff]

/-- C3: the escape index computed by the fragment shader is at most
`MAX_ITER = 500`; when it is below `MAX_ITER` it is the first orbit
index `n` (for `z_0 = 0`, `z_{n+1} = z_n² + c`) with `|z_n|² > 4`
strictly, and when it equals `MAX_ITER` no orbit index below `MAX_ITER`
escapes; `c = (0, 0)` never escapes and yields `MAX_ITER`, while
`c = (1, 0)` escapes with the small index 3. -/
theorem escape_time_spec :
    (∀ c : ℚ × ℚ,
      escape_b c ≤ max_iterations ∧
      (escape_b c < max_iterations →
        4 < normSq (zseq c (escape_b c)) ∧
        ∀ m, m < escape_b c → ¬ 4 < normSq (zseq c m)) ∧
      (escape_b c = max_iterations →
        ∀ n, n < max_iterations → ¬ 4 < normSq (zseq c n))) ∧
    escape_b (0, 0) = max_iterations ∧
    escape_b (1, 0) = 3 := by
  have hbe : ∀ c : ℚ × ℚ, escape_b c = escapeGo c (zseq c 0) 0 max_iterations :=
    fun c => rfl
  have main : ∀ c : ℚ × ℚ,
      escape_b c ≤ max_iterations ∧
      (escape_b c < max_iterations →
        4 < normSq (zseq c (escape_b c)) ∧
        ∀ m, m < escape_b c → ¬ 4 < normSq (zseq c m)) ∧
      (escape_b c = max_iterations →
        ∀ n, n < max_iterations → ¬ 4 < normSq (zseq c n)) := by
    intro c
    rcases escapeGo_char c max_iterations 0 with ⟨hm, hall⟩ | ⟨h1, h2, h3, h4⟩
    · rw [hbe c] at *
      refine ⟨le_of_eq hm, fun hlt => absurd hm (by omega), fun _ n hn => ?_⟩
      simpa using hall n hn
    · rw [hbe c] at *
      refine ⟨by omega, fun _ => ⟨h3, fun m hm => h4 m (Nat.zero_le m) hm⟩,
        fun heq => absurd heq (by omega)⟩
  refine ⟨main, ?_, ?_⟩
  · rcases main (0, 0) with ⟨hle, hlt, _⟩
    by_contra hne
    have hlt' : escape_b (0, 0) < max_iterations := by omega
    have := (hlt hlt').1
    rw [zseq_zero_const] at this
    norm_num [normSq] at this
  · rcases main (1, 0) with ⟨hle, hlt, heq⟩
    have hz0 : zseq (1, 0) 0 = (0, 0) := rfl
    have hz1 : zseq (1, 0) 1 = (1, 0) := by
      rw [zseq_succ, hz0]; norm_num [square_complex, Prod.ext_iff]
    have hz2 : zseq (1, 0) 2 = (2, 0) := by
      rw [zseq_succ, hz1]; norm_num [square_complex, Prod.ext_iff]
    have hz3 : zseq (1, 0) 3 = (5, 0) := by
      rw [zseq_succ, hz2]; norm_num [square_complex, Prod.ext_iff]
    have hP3 : 4 < normSq (zseq (1, 0) 3) := by
      rw [hz3]; norm_num [normSq]
    have hnP : ∀ m, m < 3 → ¬ 4 < normSq (zseq (1, 0) m) := by
      intro m hm
      interval_cases m
      · rw [hz0]; norm_num [normSq]
      · rw [hz1]; norm_num [normSq]
      · rw [hz2]; norm_num [normSq]
    have hne : escape_b (1, 0) ≠ max_iterations := fun he =>
      heq he 3 (by norm_num [max_iterations]) hP3
    have hlt' : escape_b (1, 0) < max_iterations := by omega
    rcases hlt hlt' with ⟨hPb, hfirst⟩
    have hub : ¬ 3 < escape_b (1, 0) := fun hgt => hfirst 3 hgt hP3
    have hlb : ¬ escape_b (1, 0) < 3 := fun hlt3 => hnP _ hlt3 hPb
    omega

/-- Witness for `escape_time_spec`: `c = (1, 0)` escapes below the cap
and its orbit point at the returned index indeed has `|z|² > 4`. -/
theorem escape_time_spec_witness :
    escape_b (1, 0) < max_iterations ∧
    4 < normSq (zseq (1, 0) (escape_b (1, 0))) := by
  have h3 : escape_b (1, 0) = 3 := escape_time_spec.2.2
  have hlt : escape_b (1, 0) < max_iterations := by
    rw [h3]; norm_num [max_iterations]
  exact ⟨hlt, ((escape_time_spec.1 (1, 0)).2.1 hlt).1⟩

/-! ### Fragment colour policy (claim C4) -/

/-- The palette `Mandelbrot::new` builds, evaluated: no conversion
panics and the twelve RGBA entries are these. -/
theorem build_palette_eq : build_palette = some
    [(255, 0, 0, 255), (255, 127, 0, 255), (255, 255, 0, 255), (127, 255, 0, 255),
     (0, 255, 0, 255), (0, 255, 127, 255), (0, 255, 255, 255), (0, 127, 255, 255),
     (0, 0, 255, 255), (127, 0, 255, 255), (255, 0, 255, 255), (255, 0, 127, 255)] := by
  norm_num [build_palette, NUM_COLORS, List.range_succ, hsv_to_rgb, truncI, as_u8,
    List.mapM.loop, Option.bind]
  decide

/-- C4: with the palette the program builds, a pixel whose escape index
is `MAX_ITER` is opaque black; any other escape index `b` is coloured
with palette entry `b mod NUM_COLORS`; consequently the colour is
periodic with period `NUM_COLORS` in the escape index. -/
theorem frag_color_policy (pal : List (ℕ × ℕ × ℕ × ℕ))
    (hpal : build_palette = some pal) (b : ℕ) :
    (b = max_iterations → frag_color pal b = (0, 0, 0, 255)) ∧
    (b ≠ max_iterations →
      frag_color pal b = pal.getD (b % NUM_COLORS) (0, 0, 0, 0)) ∧
    (∀ b2 : ℕ, b ≠ max_iterations → b2 ≠ max_iterations →
      b % NUM_COLORS = b2 % NUM_COLORS →
      frag_color pal b = frag_color pal b2) := by
  have hpal' : pal =
      [(255, 0, 0, 255), (255, 127, 0, 255), (255, 255, 0, 255), (127, 255, 0, 255),
       (0, 255, 0, 255), (0, 255, 127, 255), (0, 255, 255, 255), (0, 127, 255, 255),
       (0, 0, 255, 255), (127, 0, 255, 255), (255, 0, 255, 255), (255, 0, 127, 255)] :=
    Option.some.inj ((build_palette_eq ▸ hpal).symm)
  have hlen : pal.length = NUM_COLORS := by rw [hpal']; rfl
  have key : ∀ a : ℕ, a ≠ max_iterations →
      frag_color pal a = pal.getD (a % NUM_COLORS) (0, 0, 0, 0) := by
    intro a ha
    have hsub : a - a / NUM_COLORS * NUM_COLORS = a % NUM_COLORS := by
      simp only [NUM_COLORS]
      omega
    have hmodlt : a % NUM_COLORS < NUM_COLORS :=
      Nat.mod_lt a (by norm_num [NUM_COLORS])
    rw [frag_color, if_neg ha, hsub, sampleNearest, hlen]
    have harg : ((a % NUM_COLORS : ℕ) : ℚ) / (NUM_COLORS : ℚ) * (NUM_COLORS : ℚ)
        = ((a % NUM_COLORS : ℕ) : ℚ) :=
      div_mul_cancel₀ _ (by norm_num [NUM_COLORS])
    rw [harg, Int.floor_natCast, Int.toNat_natCast]
  refine ⟨fun hb => ?_, key b, fun b2 hb hb2 hmod => ?_⟩
  · rw [frag_color, if_pos hb]
  · rw [key b hb, key b2 hb2, hmod]

/-- Witness for `frag_color_policy` on the evaluated palette: the
interior colour at `b = 500` and the period-12 repetition
`frag_color _ 1 = frag_color _ 13`. -/
theorem frag_color_policy_witness :
    frag_color
      [(255, 0, 0, 255), (255, 127, 0, 255), (255, 255, 0, 255), (127, 255, 0, 255),
       (0, 255, 0, 255), (0, 255, 127, 255), (0, 255, 255, 255), (0, 127, 255, 255),
       (0, 0, 255, 255), (127, 0, 255, 255), (255, 0, 255, 255), (255, 0, 127, 255)]
      500 = (0, 0, 0, 255) ∧
    frag_color
      [(255, 0, 0, 255), (255, 127, 0, 255), (255, 255, 0, 255), (127, 255, 0, 255),
       (0, 255, 0, 255), (0, 255, 127, 255), (0, 255, 255, 255), (0, 127, 255, 255),
       (0, 0, 255, 255), (127, 0, 255, 255), (255, 0, 255, 255), (255, 0, 127, 255)]
      1 = frag_color
      [(255, 0, 0, 255), (255, 127, 0, 255), (255, 255, 0, 255), (127, 255, 0, 255),
       (0, 255, 0, 255), (0, 255, 127, 255), (0, 255, 255, 255), (0, 127, 255, 255),
       (0, 0, 255, 255), (127, 0, 255, 255), (255, 0, 255, 255), (255, 0, 127, 255)]
      13 :=
  ⟨((frag_color_policy _ build_palette_eq 500).1 (by norm_num [max_iterations])),
   ((frag_color_policy _ build_palette_eq 1).2.2 13
      (by norm_num [max_iterations]) (by norm_num [max_iterations])
      (by norm_num [NUM_COLORS]))⟩

end MandelbrotViewer
